import Mathlib

/-!
Verification of the incremental geospatial discovery pipeline
(zone scan planner, dedup/incremental state, menu crawler, places API client).

The Python sources are shallowly embedded:
* floats are modelled as exact rationals (`1.4` is `7/5`, radii are `ℚ`);
* Python `int(x)` truncation toward zero is `pyInt`;
* Python `range(a, b, s)` over integers is `pythonRange`;
* Python substring tests (`needle in hay`) are `hasSub` on character lists;
* network responses are explicit data (`Page`, `ApiOutcome`), and the
  crawler's `while queue:` loop is a fuel-indexed recursion `crawl` whose
  fuel `fuelBound` is proved sufficient.
-/

/-- Python `needle in hay` on strings, as a substring test on char lists:
true iff `needle` occurs contiguously inside `hay` (the empty needle always
occurs). -/
def hasSub : List Char → List Char → Bool
  | hay, needle =>
    if needle.isPrefixOf hay then true
    else
      match hay with
      | [] => false
      | _ :: t => hasSub t needle

/-- Python `s.endswith(suf)`. -/
def pyEndsWith (s suf : String) : Bool :=
  suf.toList.isSuffixOf s.toList

/-- Python `s.lower()` for the ASCII text this pipeline handles: lowercase
every character. -/
def pyLower (s : String) : String :=
  ⟨s.toList.map Char.toLower⟩

/-- Split a character list at the first occurrence of `sep`: the parts
before and after it, or `none` when `sep` does not occur. -/
def breakSub (sep : List Char) : List Char → Option (List Char × List Char)
  | [] => if sep.isPrefixOf [] then some ([], []) else none
  | c :: t =>
    if sep.isPrefixOf (c :: t) then some ([], (c :: t).drop sep.length)
    else (breakSub sep t).map fun p => (c :: p.1, p.2)

/-- Python `int(x)` on a real number: truncation toward zero. -/
def pyInt (q : ℚ) : ℤ :=
  if q < 0 then ⌈q⌉ else ⌊q⌋

/-- Python `range(a, b, s)` for a positive step `s`: the integers
`a, a + s, a + 2 s, ...` strictly below `b`. -/
def pythonRange (a b s : ℤ) : List ℤ :=
  if 0 < s then
    (List.range ((b - a + s - 1) / s).toNat).map (fun (k : ℕ) => a + (k : ℤ) * s)
  else []

/-! ## Link classifier (src/crawler.py, `MenuDiscoveryCrawler`) -/

/-- `self.menu_keywords` (src/crawler.py lines 17-20). -/
def menu_keywords : List String :=
  ["menu", "food", "drink", "brunch", "dinner", "breakfast", "lunch",
   "carte", "prix-fixe", "wine-list", "cocktails", "a-la-carte"]

/-- The `exclude` list inside `is_menu_link` (src/crawler.py line 35). -/
def exclude_terms : List String :=
  ["instagram", "facebook", "twitter", "login", "booking", "reservation"]

/-- `MenuDiscoveryCrawler.is_menu_link` (src/crawler.py lines 22-39):
lowercase both inputs; a href ending in `.pdf` is a hit; otherwise the
string `href ++ " " ++ text` (the f-string combined value) must contain a
menu keyword and the href must contain no exclusion term. -/
def is_menu_link (href text : String) : Bool :=
  let href := pyLower href
  let text := pyLower text
  if pyEndsWith href ".pdf" then true
  else
    let combined := href ++ " " ++ text
    if menu_keywords.any (fun kw => hasSub combined.toList kw.toList) then
      if !(exclude_terms.any (fun ex => hasSub href.toList ex.toList)) then true
      else false
    else false

/-- The spec's reference definition of the classifier, written from the
spec's words (spec sections 4.3 step 6 and 8): hit iff the lowercase href
ends in `.pdf`, or else the lowercase combined href-and-text string
(joined as in the source with one space) contains some fixed menu keyword
and the lowercase href contains no exclusion term. -/
def menu_link_spec (href text : String) : Prop :=
  pyEndsWith (pyLower href) ".pdf" = true ∨
    ((∃ kw ∈ menu_keywords,
        hasSub (pyLower href ++ " " ++ pyLower text).toList kw.toList = true) ∧
      ∀ ex ∈ exclude_terms, hasSub (pyLower href).toList ex.toList = false)

/-! ## URL model (urllib.parse as used by the crawler) -/

/-- Models `urllib.parse.urlparse(u).scheme` for the URL shapes the crawler
meets: the text before `"://"`, or `""` when the URL has no scheme part. -/
def schemeOf (u : String) : String :=
  match breakSub "://".toList u.toList with
  | some (pre, _) => ⟨pre⟩
  | none => ""

/-- Models `urllib.parse.urlparse(u).netloc` for `scheme://host/path` URLs:
the text between `"://"` and the next `"/"`, or `""` for a relative URL. -/
def netlocOf (u : String) : String :=
  match breakSub "://".toList u.toList with
  | some (_, rest) => ⟨rest.takeWhile (fun c => c ≠ '/')⟩
  | none => ""

/-- Models `urllib.parse.urljoin(base, url)` for the cases the crawler
exercises: an absolute `url` (one containing `"://"`) replaces `base`; an
empty `url` keeps `base`; a root-relative `url` (leading `"/"`) replaces the
path of `base`; otherwise `url` replaces the last path segment of `base`'s
path. -/
def urljoin (base url : String) : String :=
  if (breakSub "://".toList url.toList).isSome then url
  else if url = "" then base
  else
    match breakSub "://".toList base.toList with
    | some (scheme, rest) =>
      let host := rest.takeWhile (fun c => c ≠ '/')
      let path := rest.drop host.length
      if url.toList.head? = some '/' then ⟨scheme⟩ ++ "://" ++ ⟨host⟩ ++ url
      else
        let kept := (path.reverse.dropWhile (fun c => c ≠ '/')).reverse
        if kept = [] then ⟨scheme⟩ ++ "://" ++ ⟨host⟩ ++ "/" ++ url
        else ⟨scheme⟩ ++ "://" ++ ⟨host⟩ ++ ⟨kept⟩ ++ url
    | none => url

/-! ## Bounded site crawler (src/crawler.py, `find_menu`) -/

/-- One fetched page of a site: the HTTP status, the `content-type` header
and the anchors `(href, visible text)` parsed from the body. -/
structure Page where
  status : ℕ
  contentType : String
  links : List (String × String)
deriving DecidableEq

/-- A finite website: the pages the HTTP client can fetch, keyed by URL.
A URL outside the list models a failing fetch (the `except` path of
src/crawler.py lines 87-89). -/
abbrev Site := List (String × Page)

/-- The `for link in links:` body of `find_menu` (src/crawler.py lines
69-85) over one fetched page: resolve each href against the page URL, skip
hrefs whose netloc differs from the netloc of `base` (line 77), return the
first menu hit (line 81), and otherwise collect the URLs to enqueue at
`depth + 1` when `depth < max_depth` (line 85).  The first component is the
hit (the early `return full_url`), the second the enqueued items in order;
items collected before a later hit are dropped, exactly as the Python
`return` abandons them. -/
def scanLinks (base url : String) (depth maxD : ℕ) :
    List (String × String) → Option String × List (String × ℕ)
  | [] => (none, [])
  | (href, text) :: rest =>
    let full := urljoin url href
    if netlocOf full ≠ netlocOf base then scanLinks base url depth maxD rest
    else if is_menu_link href text then (some full, [])
    else if depth < maxD then
      let r := scanLinks base url depth maxD rest
      (r.1, (full, depth + 1) :: r.2)
    else scanLinks base url depth maxD rest

/-- The `while queue:` loop of `find_menu` (src/crawler.py lines 50-91),
indexed by fuel (one unit per loop iteration; `fuelBound` below is proved
sufficient, which is the termination claim).  The queue holds `(url, depth)`
pairs popped from the front; `visited` is the visited set; `none` means the
fuel ran out, `some s` that the loop finished with result `s` (`""` for
queue exhaustion, line 91). -/
def crawl (site : Site) (base : String) (maxD : ℕ) :
    ℕ → List (String × ℕ) → List String → Option String
  | 0, _, _ => none
  | _ + 1, [], _ => some ""
  | fuel + 1, (url, depth) :: rest, visited =>
    if url ∈ visited ∨ maxD < depth then crawl site base maxD fuel rest visited
    else
      match List.lookup url site with
      | none => crawl site base maxD fuel rest (url :: visited)
      | some page =>
        if page.status ≠ 200 then crawl site base maxD fuel rest (url :: visited)
        else if hasSub (pyLower page.contentType).toList "text/html".toList = false then
          crawl site base maxD fuel rest (url :: visited)
        else
          match scanLinks base url depth maxD page.links with
          | (some hit, _) => some hit
          | (none, items) => crawl site base maxD fuel (rest ++ items) (url :: visited)

/-- The total number of anchors over all pages of a site (an upper bound on
how many URLs one loop iteration can enqueue). -/
def totalLinks (site : Site) : ℕ :=
  (site.map (fun e => e.2.links.length)).sum

/-- Fuel that always suffices for `crawl` (proved in
`crawl_isSome_of_measure_lt` below). -/
def fuelBound (site : Site) (maxD : ℕ) : ℕ :=
  (totalLinks site + 1) ^ (maxD + 1) + 1

/-- `MenuDiscoveryCrawler.find_menu` (src/crawler.py lines 41-91): an empty
website returns `""` before the queue or the HTTP client is created (lines
43-44); otherwise the crawl loop runs from queue `[(base_url, 0)]` and an
empty visited set.  `maxD` is `self.max_depth` (default 2). -/
def find_menu (site : Site) (base : String) (maxD : ℕ) : String :=
  if base = "" then ""
  else (crawl site base maxD (fuelBound site maxD) [(base, 0)] []).getD ""

/-- The pages the crawler can reach from `base`: `base` itself, and every
same-netloc resolved link of a reachable page that was fetched successfully
(status 200, HTML content type). -/
inductive Reachable (site : Site) (base : String) : String → Prop
  | base : Reachable site base base
  | step {u : String} {page : Page} {href text : String} :
      Reachable site base u →
      List.lookup u site = some page →
      page.status = 200 →
      hasSub (pyLower page.contentType).toList "text/html".toList = true →
      (href, text) ∈ page.links →
      netlocOf (urljoin u href) = netlocOf base →
      Reachable site base (urljoin u href)

/-! ## Geospatial scan planner (src/main.py, `generate_scan_points`) -/

/-- The planar grid of `generate_scan_points` (src/main.py lines 128-137)
as metre offsets `(x, y)` from the zone center: the nested
`for x in range(int(-radius), int(radius) + 1, int(step))` /
`for y in range(...)` loops with `step = max(scan_radius_meters * 1.4, 200)`,
keeping a point unless `x*x + y*y > radius_meters * radius_meters`.
`generate_scan_points` then maps each kept offset through the affine chart
`(lat, lng) = (center_lat + y / 111320, center_lng + x / (111320 * cos center_lat))`
(`meters_to_lat` / `meters_to_lng`, lines 113-120), which sends one offset to
one returned point; the planar-distance claims live on the offsets.
The float literal `1.4` is modelled as the exact rational `7/5`. -/
def grid_offsets (radius_meters scan_radius_meters : ℚ) : List (ℤ × ℤ) :=
  let step : ℚ := max (scan_radius_meters * (7 / 5)) 200
  let coords := pythonRange (pyInt (-radius_meters)) (pyInt radius_meters + 1) (pyInt step)
  coords.flatMap fun x =>
    (coords.filter fun (y : ℤ) =>
        decide (¬ ((x : ℚ) * (x : ℚ) + (y : ℚ) * (y : ℚ) > radius_meters * radius_meters))).map
      fun y => (x, y)

/-- The offsets actually returned by `generate_scan_points` (src/main.py
lines 139-142): the grid, or the single zone-center offset `(0, 0)` when the
grid kept no point. -/
def scan_offsets (radius_meters scan_radius_meters : ℚ) : List (ℤ × ℤ) :=
  let points := grid_offsets radius_meters scan_radius_meters
  if points.isEmpty then [(0, 0)] else points

/-! ## Places API client (src/google_places.py, `GooglePlacesClient`) -/

/-- The outcome of one `self.client.request(...)` call as
`_request_with_retry` discriminates it (src/google_places.py lines 22-43):
a JSON body with a 2xx status (`ok`), a 403 (`forbidden`), a 429
(`rateLimited`), or any raised exception including `raise_for_status` on
another error status and transport failures (`transportError`). -/
inductive ApiOutcome (α : Type) where
  | ok : α → ApiOutcome α
  | forbidden : ApiOutcome α
  | rateLimited : ApiOutcome α
  | transportError : ApiOutcome α
deriving DecidableEq

/-- What one run of `_request_with_retry` did: the returned value (`none`
models the empty dict `{}`), how many requests were issued, and the sleep
durations in order. -/
structure RetryTrace (α : Type) where
  result : Option α
  calls : ℕ
  sleeps : List ℚ
deriving DecidableEq

/-- `retries = 3` (src/google_places.py line 18). -/
def retries : ℕ := 3

/-- The `for attempt in range(retries):` loop of `_request_with_retry`
(src/google_places.py lines 21-45), with the upstream's reply to attempt
number `a` given by `responses a`.  Arguments: remaining loop iterations,
current attempt number, current backoff (starts at `1.0`, doubling after
every sleep), requests issued so far, sleeps so far.  Falling out of the
loop returns `{}` (line 45); a 403 returns `{}` at once (lines 25-27); a 429
sleeps and retries (lines 29-33); an exception re-raises into the `except`
block, which returns `{}` on the last attempt and otherwise sleeps and
retries (lines 38-43). -/
def retry_go {α : Type} (responses : ℕ → ApiOutcome α) :
    ℕ → ℕ → ℚ → ℕ → List ℚ → RetryTrace α
  | 0, _, _, calls, sleeps => ⟨none, calls, sleeps⟩
  | remaining + 1, attempt, backoff, calls, sleeps =>
    match responses attempt with
    | .ok a => ⟨some a, calls + 1, sleeps⟩
    | .forbidden => ⟨none, calls + 1, sleeps⟩
    | .rateLimited =>
      retry_go responses remaining (attempt + 1) (backoff * 2) (calls + 1) (sleeps ++ [backoff])
    | .transportError =>
      if attempt = retries - 1 then ⟨none, calls + 1, sleeps⟩
      else
        retry_go responses remaining (attempt + 1) (backoff * 2) (calls + 1) (sleeps ++ [backoff])

/-- `GooglePlacesClient._request_with_retry` (src/google_places.py lines
17-45): the retry loop from attempt 0 with backoff `1.0`. -/
def request_with_retry {α : Type} (responses : ℕ → ApiOutcome α) : RetryTrace α :=
  retry_go responses retries 0 1 0 []

/-- A location-bias circle of a text-search page request
(src/google_places.py lines 72-78). -/
structure LocationBias where
  lat : ℚ
  lng : ℚ
  radius : ℚ
deriving DecidableEq

/-- The location bias that `GooglePlacesClient.text_search` puts into every
page request (src/google_places.py lines 51-78): the function-local
constants `SOHO_LAT = 51.5136`, `SOHO_LNG = -0.1331` and the literal radius
`1000.0`.  `text_search(self, query)` takes no scan point and no radius, so
this bias is the same for every page of every search. -/
def text_search_bias : LocationBias :=
  ⟨515136 / 10000, -1331 / 10000, 1000⟩

/-- `SCAN_RADIUS_METERS = 350` (src/main.py line 25), the sub-scan radius
`run_zone_scan` passes to `google.text_search(SEARCH_QUERY, lat, lng,
SCAN_RADIUS_METERS)` (src/main.py lines 274-279). -/
def SCAN_RADIUS_METERS : ℚ := 350

/-! ## Incremental discovery state and orchestrator loop (src/main.py,
`run_zone_scan`) -/

/-- Python `place_id in known_place_ids`, where `known_place_ids` is kept
equal to the key set of `existing_places` (src/main.py lines 253-254, 318,
320): membership of an id among the keys of the state mapping. -/
def containsKey {Row : Type} (state : List (String × Row)) (id : String) : Bool :=
  (List.lookup id state).isSome

/-- What one pass of the `for place in raw_places:` loop accumulates
(src/main.py lines 281-333): the state mapping `existing_places`, the
per-zone counter `zone_new_count`, and the ids for which the expensive
enrichment path (details fetch at line 289 plus crawl at line 297) was
entered. -/
structure ScanResult (Row : Type) where
  state : List (String × Row)
  newCount : ℕ
  enriched : List String
deriving DecidableEq

/-- The body of `for place in raw_places:` (src/main.py lines 281-333) for
one place summary: `none` models a summary whose `"id"` is missing, and an
empty or already-known id is skipped before any enrichment (line 283).
`enrich pid` bundles the details fetch and row construction (lines 289-316):
`none` models empty details (`if not details: continue`, lines 290-291),
`some row` the constructed row that is recorded into the state and counted
(lines 318-321). -/
def scan_step {Row : Type} (enrich : String → Option Row)
    (acc : ScanResult Row) : Option String → ScanResult Row
  | none => acc
  | some pid =>
    if pid = "" ∨ containsKey acc.state pid then acc
    else
      match enrich pid with
      | none => ⟨acc.state, acc.newCount, acc.enriched ++ [pid]⟩
      | some row => ⟨(pid, row) :: acc.state, acc.newCount + 1, acc.enriched ++ [pid]⟩

/-- One run of the orchestrator's discovery loop over the full sequence of
place summaries the searches return (in order, over all scan points of all
zones), starting from the loaded state mapping (src/main.py lines 253-254,
272-333).  A fixed `enrich` models an unchanged upstream: the same id
always yields the same details. -/
def run_scan {Row : Type} (enrich : String → Option Row)
    (summaries : List (Option String)) (s0 : List (String × Row)) : ScanResult Row :=
  summaries.foldl (scan_step enrich) ⟨s0, 0, []⟩

/-! ## Zone saturation flag (src/main.py lines 348-353) -/

/-- The per-zone saturation update after one scan pass (src/main.py lines
348-353): append the pass's `zone_new_count` to `recent_new_counts`, keep
the last two (`[-2:]`), and set `likely_complete` iff both of two kept
counts are below 2. -/
def update_zone_completion (recent : List ℤ) (new_count : ℤ) : List ℤ × Bool :=
  let appended := recent ++ [new_count]
  let kept := appended.drop (appended.length - 2)
  (kept, decide (kept.length = 2) && kept.all fun c => decide (c < 2))

/-- The saturation state after a sequence of scan passes with the given
`new_found` counts, starting from the empty history (a fresh zone, or one
whose stored `recent_new_counts` was not a list, src/main.py lines
348-350). -/
def run_passes (counts : List ℤ) : List ℤ × Bool :=
  counts.foldl (fun st c => update_zone_completion st.1 c) ([], false)

/-- The last two elements of a list (what `recent_new_counts` holds after
the `[-2:]` truncation). -/
def lastTwo (l : List ℤ) : List ℤ :=
  l.drop (l.length - 2)

/-! ## Helper notions used by the theorems -/

/-- A place summary on which a discovery pass starting from `state` does
nothing new: no id, an empty id, an id already recorded, or an id whose
details fetch comes back empty (so it is never recorded). -/
def SaturatedFor {Row : Type} (enrich : String → Option Row)
    (state : List (String × Row)) : Option String → Prop
  | none => True
  | some pid => pid = "" ∨ containsKey state pid = true ∨ enrich pid = none

/-- A two-page site whose link graph is the cycle A -> B -> A, with no menu
keyword anywhere (the crawler-termination test case of the spec). -/
def cyclicSite : Site :=
  [("https://a.com", ⟨200, "text/html", [("https://a.com/b", "next")]⟩),
   ("https://a.com/b", ⟨200, "text/html", [("https://a.com", "home")]⟩)]

/-- A one-page site whose homepage links to a same-host menu URL with a
different scheme (http vs https) — the same-origin counterexample input. -/
def schemeCexSite : Site :=
  [("https://ex.com", ⟨200, "text/html", [("http://ex.com/menu", "")]⟩)]

/-- Weight of one queue item at the given depth, for the crawler's
termination measure: items that can still spawn children weigh more than
everything they can spawn. -/
def linkWeight (maxD T depth : ℕ) : ℕ :=
  (T + 1) ^ (maxD + 1 - depth)

/-- Termination measure of a crawler queue: the sum of its items'
weights.  Every loop iteration strictly decreases it. -/
def queueMeasure (maxD T : ℕ) (q : List (String × ℕ)) : ℕ :=
  (q.map fun it => linkWeight maxD T it.2).sum

/-! # Theorems -/

/-! ## C3: the link classifier against its reference definition -/

/-- C3: for every `(href, text)` pair, `is_menu_link` hits iff the lowercase
href ends in `.pdf`, or else the lowercase combined href-and-text string
contains a menu keyword and the lowercase href contains no exclusion term;
and the four reference examples classify as the spec states. -/
theorem is_menu_link_matches_spec :
    (∀ href text, is_menu_link href text = true ↔ menu_link_spec href text) ∧
    is_menu_link "menu.pdf" "" = true ∧
    is_menu_link "https://instagram.com/menu" "our menu" = false ∧
    is_menu_link "/reservations" "book a table" = false ∧
    is_menu_link "/food-and-drink" "Food & Drink" = true := by
  refine ⟨?_, by decide, by decide, by decide, by decide⟩
  intro href text
  unfold is_menu_link menu_link_spec
  by_cases hpdf : pyEndsWith (pyLower href) ".pdf" = true
  · simp [hpdf]
  · simp only [Bool.not_eq_true] at hpdf
    simp only [hpdf, if_false, Bool.false_eq_true, false_or]
    cases ha : menu_keywords.any
        (fun kw => hasSub (pyLower href ++ " " ++ pyLower text).toList kw.toList) with
    | false =>
      simp only [if_false, Bool.false_eq_true, false_iff, not_and_or]
      left
      rw [List.any_eq_false] at ha
      rintro ⟨kw, hkw, hsub⟩
      exact absurd hsub (by simpa using ha kw hkw)
    | true =>
      simp only [if_true]
      cases hb : exclude_terms.any (fun ex => hasSub (pyLower href).toList ex.toList) with
      | false =>
        rw [List.any_eq_false] at hb
        simp only [hb, Bool.not_false, if_true, true_iff]
        refine ⟨List.any_eq_true.mp ha, fun ex hex => ?_⟩
        simpa using hb ex hex
      | true =>
        simp only [Bool.not_true, if_false, Bool.false_eq_true, false_iff, not_and_or]
        right
        rw [List.any_eq_true] at hb
        obtain ⟨ex, hex, hsub⟩ := hb
        intro hall
        rw [hall ex hex] at hsub
        exact Bool.false_ne_true hsub

/-! ## C6: the text-search location bias ignores the scan point -/

/-- C6 (code bug): the location-bias circle `text_search` sends with every
page request is the fixed Soho circle — center `(51.5136, -0.1331)`, radius
`1000.0` — and in particular its radius is not the sub-scan radius
`SCAN_RADIUS_METERS = 350` that `run_zone_scan` supplies; the bias cannot
depend on the scan point because `text_search(self, query)` does not accept
one. -/
theorem text_search_bias_is_fixed_soho :
    text_search_bias.lat = 515136 / 10000 ∧
    text_search_bias.lng = -1331 / 10000 ∧
    text_search_bias.radius = 1000 ∧
    text_search_bias.radius ≠ SCAN_RADIUS_METERS := by
  refine ⟨rfl, rfl, rfl, ?_⟩
  norm_num [text_search_bias, SCAN_RADIUS_METERS]

/-! ## C9: the planner never returns an empty set -/

/-- C9: for every zone radius `R ≥ 0` and sub-scan radius `r > 0` the
planner returns at least one point, and when the filtered grid is empty it
returns exactly the single zone-center offset. -/
theorem scan_offsets_nonempty (R r : ℚ) (hR : 0 ≤ R) (hr : 0 < r) :
    1 ≤ (scan_offsets R r).length ∧
    (grid_offsets R r = [] → scan_offsets R r = [(0, 0)]) := by
  unfold scan_offsets
  by_cases h : (grid_offsets R r).isEmpty
  · simp [h]
  · refine ⟨?_, fun he => absurd (by simp [he] : (grid_offsets R r).isEmpty = true) h⟩
    simp only [h, if_false]
    have : grid_offsets R r ≠ [] := by
      intro he
      exact h (by simp [he])
    exact Nat.one_le_iff_ne_zero.mpr (by simpa [List.length_eq_zero] using this)

/-- Witness for C9 at the end-to-end configuration `R = 1000`, `r = 350`. -/
theorem scan_offsets_nonempty_witness :
    1 ≤ (scan_offsets 1000 350).length ∧
    (grid_offsets 1000 350 = [] → scan_offsets 1000 350 = [(0, 0)]) :=
  scan_offsets_nonempty 1000 350 (by norm_num) (by norm_num)

/-! ## C10: the empty-website guard -/

/-- C10: an empty `base_url` makes `find_menu` return `""` at once, for
every site and depth limit — the guard precedes queue creation and any
fetch, so the result cannot depend on the site. -/
theorem find_menu_empty_website :
    ∀ (site : Site) (maxD : ℕ), find_menu site "" maxD = "" := by
  intro site maxD
  simp [find_menu]

/-! ## C7: the saturation flag -/

/-- A list of at most two elements is its own last-two truncation. -/
theorem lastTwo_of_length_le {l : List ℤ} (h : l.length ≤ 2) : lastTwo l = l := by
  unfold lastTwo
  rw [Nat.sub_eq_zero_of_le h, List.drop_zero]

/-- The length of the last-two truncation. -/
theorem lastTwo_length (l : List ℤ) : (lastTwo l).length = min 2 l.length := by
  unfold lastTwo
  rw [List.length_drop]
  omega

/-- Appending one element to the last-two truncation and truncating again
is truncating the extended list. -/
theorem lastTwo_lastTwo_concat (l : List ℤ) (c : ℤ) :
    lastTwo (lastTwo l ++ [c]) = lastTwo (l ++ [c]) := by
  by_cases h : l.length ≤ 1
  · rw [lastTwo_of_length_le (show l.length ≤ 2 by omega)]
  · have hx : (lastTwo l).length = 2 := by rw [lastTwo_length]; omega
    show (lastTwo l ++ [c]).drop ((lastTwo l ++ [c]).length - 2) =
      (l ++ [c]).drop ((l ++ [c]).length - 2)
    have h1 : (lastTwo l ++ [c]).length - 2 = 1 := by
      rw [List.length_append, hx]
      rfl
    have h2 : (l ++ [c]).length - 2 = l.length - 1 := by
      rw [List.length_append]
      simp
    rw [h1, h2, List.drop_append_of_le_length (by omega),
      List.drop_append_of_le_length (by omega)]
    congr 1
    show (l.drop (l.length - 2)).drop 1 = _
    rw [List.drop_drop]
    congr 1
    omega

/-- One more pass folds through `update_zone_completion`. -/
theorem run_passes_concat (l : List ℤ) (c : ℤ) :
    run_passes (l ++ [c]) = update_zone_completion (run_passes l).1 c := by
  unfold run_passes
  rw [List.foldl_append]
  rfl

/-- The kept history after any pass sequence is the last two counts. -/
theorem run_passes_fst (counts : List ℤ) : (run_passes counts).1 = lastTwo counts := by
  induction counts using List.reverseRecOn with
  | nil => rfl
  | append_singleton l c ih =>
    rw [run_passes_concat]
    show lastTwo ((run_passes l).1 ++ [c]) = _
    rw [ih, lastTwo_lastTwo_concat]

/-- C7: after any sequence of scan passes, `likely_complete` is true iff at
least two passes have happened and both of the two most recent `new_found`
counts are strictly below the threshold 2; on the history 5, 1, 1, 0 the
flag first becomes true after the second consecutive below-threshold count,
and on 5, 1, 0 likewise. -/
theorem likely_complete_iff_two_recent_below :
    (∀ counts : List ℤ, (run_passes counts).2 = true ↔
      (2 ≤ counts.length ∧ ∀ x ∈ lastTwo counts, x < 2)) ∧
    (run_passes [5]).2 = false ∧
    (run_passes [5, 1]).2 = false ∧
    (run_passes [5, 1, 1]).2 = true ∧
    (run_passes [5, 1, 1, 0]).2 = true ∧
    (run_passes [5, 1, 0]).2 = true := by
  refine ⟨?_, by decide, by decide, by decide, by decide, by decide⟩
  intro counts
  rcases List.eq_nil_or_concat counts with rfl | ⟨l, c, rfl⟩
  · simp [run_passes, lastTwo]
  · simp only [List.concat_eq_append]
    rw [run_passes_concat]
    show (decide ((lastTwo ((run_passes l).1 ++ [c])).length = 2) &&
        (lastTwo ((run_passes l).1 ++ [c])).all fun x => decide (x < 2)) = true ↔ _
    rw [run_passes_fst, lastTwo_lastTwo_concat]
    rw [Bool.and_eq_true, decide_eq_true_eq, List.all_eq_true]
    have hlen : (lastTwo (l ++ [c])).length = 2 ↔ 2 ≤ (l ++ [c]).length := by
      rw [lastTwo_length]
      omega
    rw [hlen]
    simp only [decide_eq_true_eq]

/-! ## C8: the retry policy of the API client -/

/-- C8: a 403 is never retried — if attempt `k` (after only transient
failures) answers 403, the client returns the empty result with exactly
`k + 1` requests issued and the doubling backoff sleeps `1, 2, ...` of the
earlier attempts only; and when every attempt fails transiently (429 or a
raised transport error), the client stops after the fixed 3 attempts and
returns the empty result instead of raising, each sleep doubling the
previous one. -/
theorem retry_forbidden_fast_transient_bounded (α : Type) (responses : ℕ → ApiOutcome α) :
    (∀ k, k < retries → responses k = ApiOutcome.forbidden →
      (∀ j, j < k → responses j = ApiOutcome.rateLimited ∨
        responses j = ApiOutcome.transportError) →
      request_with_retry responses =
        ⟨none, k + 1, (List.range k).map fun i => (2 : ℚ) ^ i⟩) ∧
    ((∀ j, j < retries → responses j = ApiOutcome.rateLimited ∨
        responses j = ApiOutcome.transportError) →
      (request_with_retry responses).result = none ∧
      (request_with_retry responses).calls = retries ∧
      ∀ i, i < (request_with_retry responses).sleeps.length →
        (request_with_retry responses).sleeps.getD i 0 = 2 ^ i) := by
  constructor
  · intro k hk hfk hprev
    simp only [retries] at hk
    interval_cases k
    · simp [request_with_retry, retry_go, hfk]
    · rcases hprev 0 (by decide) with h0 | h0 <;>
        · simp [request_with_retry, retry_go, h0, hfk, retries]
          norm_num [List.range_succ]
    · rcases hprev 0 (by decide) with h0 | h0 <;>
        rcases hprev 1 (by decide) with h1 | h1 <;>
        · simp [request_with_retry, retry_go, h0, h1, hfk, retries]
          norm_num [List.range_succ]
  · intro htrans
    rcases htrans 0 (by decide) with h0 | h0 <;>
      rcases htrans 1 (by decide) with h1 | h1 <;>
      rcases htrans 2 (by decide) with h2 | h2 <;>
    · first
      | have htr : request_with_retry responses = ⟨none, 3, [1, 2, 4]⟩ := by
          norm_num [request_with_retry, retry_go, h0, h1, h2, retries]
      | have htr : request_with_retry responses = ⟨none, 3, [1, 2]⟩ := by
          norm_num [request_with_retry, retry_go, h0, h1, h2, retries]
      rw [htr]
      refine ⟨rfl, rfl, ?_⟩
      intro i hi
      simp only [List.length_cons, List.length_nil] at hi
      interval_cases i <;> norm_num

/-! ## C1: idempotent incremental dedup -/
theorem containsKey_cons {Row : Type} (k : String) (v : Row) (s : List (String × Row))
    (pid : String) :
    containsKey ((k, v) :: s) pid = ((pid == k) || containsKey s pid) := by
  unfold containsKey
  by_cases h : pid == k <;> simp [List.lookup, h]

theorem scan_step_skip {Row : Type} (enrich : String → Option Row) (acc : ScanResult Row)
    (pid : String) (h : pid = "" ∨ containsKey acc.state pid = true) :
    scan_step enrich acc (some pid) = acc := by
  simp only [scan_step]
  rw [if_pos h]

theorem scan_step_new_none {Row : Type} (enrich : String → Option Row) (acc : ScanResult Row)
    (pid : String) (h : ¬(pid = "" ∨ containsKey acc.state pid = true))
    (henr : enrich pid = none) :
    scan_step enrich acc (some pid) = ⟨acc.state, acc.newCount, acc.enriched ++ [pid]⟩ := by
  simp only [scan_step]
  rw [if_neg h, henr]

theorem scan_step_new_some {Row : Type} (enrich : String → Option Row) (acc : ScanResult Row)
    (pid : String) (row : Row) (h : ¬(pid = "" ∨ containsKey acc.state pid = true))
    (henr : enrich pid = some row) :
    scan_step enrich acc (some pid) =
      ⟨(pid, row) :: acc.state, acc.newCount + 1, acc.enriched ++ [pid]⟩ := by
  simp only [scan_step]
  rw [if_neg h, henr]

theorem containsKey_scan_step {Row : Type} (enrich : String → Option Row)
    (acc : ScanResult Row) (x : Option String) (pid : String)
    (h : containsKey acc.state pid = true) :
    containsKey (scan_step enrich acc x).state pid = true := by
  cases x with
  | none => exact h
  | some q =>
    by_cases hq : q = "" ∨ containsKey acc.state q = true
    · rw [scan_step_skip enrich acc q hq]; exact h
    · cases henr : enrich q with
      | none => rw [scan_step_new_none enrich acc q hq henr]; exact h
      | some row =>
        rw [scan_step_new_some enrich acc q row hq henr]
        simp [containsKey_cons, h]

theorem containsKey_foldl {Row : Type} (enrich : String → Option Row)
    (l : List (Option String)) (acc : ScanResult Row) (pid : String)
    (h : containsKey acc.state pid = true) :
    containsKey (l.foldl (scan_step enrich) acc).state pid = true := by
  induction l generalizing acc with
  | nil => exact h
  | cons x t ih => exact ih _ (containsKey_scan_step enrich acc x pid h)

theorem saturated_foldl_mono {Row : Type} (enrich : String → Option Row)
    (l : List (Option String)) (acc : ScanResult Row) (x : Option String)
    (h : SaturatedFor enrich acc.state x) :
    SaturatedFor enrich (l.foldl (scan_step enrich) acc).state x := by
  cases x with
  | none => trivial
  | some pid =>
    rcases h with h | h | h
    · exact Or.inl h
    · exact Or.inr (Or.inl (containsKey_foldl enrich l acc pid h))
    · exact Or.inr (Or.inr h)

theorem saturated_after_run {Row : Type} (enrich : String → Option Row)
    (l : List (Option String)) (acc : ScanResult Row) :
    ∀ x ∈ l, SaturatedFor enrich (l.foldl (scan_step enrich) acc).state x := by
  induction l generalizing acc with
  | nil => intro x hx; cases hx
  | cons a t ih =>
    intro x hx
    rw [List.foldl_cons]
    rcases List.mem_cons.mp hx with rfl | hmem
    · refine saturated_foldl_mono enrich t _ x ?_
      cases x with
      | none => trivial
      | some pid =>
        by_cases hskip : pid = "" ∨ containsKey acc.state pid = true
        · rcases hskip with hpid | hknown
          · exact Or.inl hpid
          · exact Or.inr (Or.inl (containsKey_scan_step enrich acc _ pid hknown))
        · cases henr : enrich pid with
          | none => exact Or.inr (Or.inr henr)
          | some row =>
            refine Or.inr (Or.inl ?_)
            rw [scan_step_new_some enrich acc pid row hskip henr]
            simp [containsKey_cons]
    · exact ih _ x hmem

theorem run_noop {Row : Type} (enrich : String → Option Row)
    (l : List (Option String)) (acc : ScanResult Row)
    (hsat : ∀ x ∈ l, SaturatedFor enrich acc.state x) :
    (l.foldl (scan_step enrich) acc).state = acc.state ∧
    (l.foldl (scan_step enrich) acc).newCount = acc.newCount ∧
    ∀ pid ∈ (l.foldl (scan_step enrich) acc).enriched,
      pid ∈ acc.enriched ∨ containsKey acc.state pid = false := by
  induction l generalizing acc with
  | nil => exact ⟨rfl, rfl, fun pid h => Or.inl h⟩
  | cons a t ih =>
    rw [List.foldl_cons]
    cases a with
    | none =>
      exact ih acc (fun x hx => hsat x (List.mem_cons_of_mem _ hx))
    | some pid =>
      by_cases hskip : pid = "" ∨ containsKey acc.state pid = true
      · rw [scan_step_skip enrich acc pid hskip]
        exact ih acc (fun x hx => hsat x (List.mem_cons_of_mem _ hx))
      · have henr : enrich pid = none := by
          rcases hsat (some pid) (List.mem_cons_self _ _) with h | h | h
          · exact absurd (Or.inl h) hskip
          · exact absurd (Or.inr h) hskip
          · exact h
        rw [scan_step_new_none enrich acc pid hskip henr]
        have hacc' : (⟨acc.state, acc.newCount, acc.enriched ++ [pid]⟩ :
            ScanResult Row).state = acc.state := rfl
        obtain ⟨h1, h2, h3⟩ := ih ⟨acc.state, acc.newCount, acc.enriched ++ [pid]⟩
          (fun x hx => hsat x (List.mem_cons_of_mem _ hx))
        refine ⟨h1, h2, fun q hq => ?_⟩
        rcases h3 q hq with hmem | hfree
        · rcases List.mem_append.mp hmem with hmem' | hsingle
          · exact Or.inl hmem'
          · have : q = pid := by simpa using hsingle
            subst this
            right
            rcases Bool.eq_false_or_eq_true (containsKey acc.state q) with h | h
            · exact absurd (Or.inr h) hskip
            · exact h
        · exact Or.inr hfree

/-- C1: with an unchanged upstream (the same summaries in the same order and
the same details per id), a second orchestrator run starting from the first
run's state records zero new entities, leaves the state mapping — every
record and hence the total count — unchanged, and enriches (details fetch +
crawl) no id already present in the loaded state. -/
theorem run_scan_idempotent {Row : Type} (enrich : String → Option Row)
    (summaries : List (Option String)) (s0 : List (String × Row)) :
    (run_scan enrich summaries (run_scan enrich summaries s0).state).newCount = 0 ∧
    (run_scan enrich summaries (run_scan enrich summaries s0).state).state =
      (run_scan enrich summaries s0).state ∧
    ∀ pid ∈ (run_scan enrich summaries (run_scan enrich summaries s0).state).enriched,
      containsKey (run_scan enrich summaries s0).state pid = false := by
  have hsat : ∀ x ∈ summaries,
      SaturatedFor enrich (run_scan enrich summaries s0).state x :=
    saturated_after_run enrich summaries ⟨s0, 0, []⟩
  obtain ⟨h1, h2, h3⟩ := run_noop enrich summaries
    ⟨(run_scan enrich summaries s0).state, 0, []⟩ hsat
  refine ⟨h2, h1, fun pid hpid => ?_⟩
  rcases h3 pid hpid with hmem | hfree
  · cases hmem
  · exact hfree

/-! ## C4 and C5: crawler termination and the same-origin policy -/

theorem scanLinks_items (base url : String) (depth maxD : ℕ)
    (links : List (String × String)) :
    ((scanLinks base url depth maxD links).2).length ≤ links.length ∧
    ∀ it ∈ (scanLinks base url depth maxD links).2,
      it.2 = depth + 1 ∧ netlocOf it.1 = netlocOf base ∧
      ∃ href text, (href, text) ∈ links ∧ it.1 = urljoin url href := by
  induction links with
  | nil => simp [scanLinks]
  | cons l rest ih =>
    obtain ⟨href, text⟩ := l
    simp only [scanLinks]
    by_cases h1 : netlocOf (urljoin url href) ≠ netlocOf base
    · rw [if_pos h1]
      refine ⟨le_trans ih.1 (Nat.le_succ _), fun it hit => ?_⟩
      obtain ⟨hd, hn, href', text', hmem, heq⟩ := ih.2 it hit
      exact ⟨hd, hn, href', text', List.mem_cons_of_mem _ hmem, heq⟩
    · rw [if_neg h1]
      by_cases h2 : is_menu_link href text
      · rw [if_pos h2]
        exact ⟨Nat.zero_le _, fun it hit => absurd hit (List.not_mem_nil it)⟩
      · rw [if_neg h2]
        by_cases h3 : depth < maxD
        · rw [if_pos h3]
          push_neg at h1
          constructor
          · simpa using Nat.succ_le_succ ih.1
          · intro it hit
            rcases List.mem_cons.mp hit with rfl | hmem
            · exact ⟨rfl, h1, href, text, List.mem_cons_self _ _, rfl⟩
            · obtain ⟨hd, hn, href', text', hmem', heq⟩ := ih.2 it hmem
              exact ⟨hd, hn, href', text', List.mem_cons_of_mem _ hmem', heq⟩
        · rw [if_neg h3]
          refine ⟨le_trans ih.1 (Nat.le_succ _), fun it hit => ?_⟩
          obtain ⟨hd, hn, href', text', hmem, heq⟩ := ih.2 it hit
          exact ⟨hd, hn, href', text', List.mem_cons_of_mem _ hmem, heq⟩

theorem scanLinks_hit (base url : String) (depth maxD : ℕ)
    (links : List (String × String)) (s : String)
    (h : (scanLinks base url depth maxD links).1 = some s) :
    ∃ href text, (href, text) ∈ links ∧ is_menu_link href text = true ∧
      s = urljoin url href ∧ netlocOf s = netlocOf base := by
  induction links with
  | nil => simp [scanLinks] at h
  | cons l rest ih =>
    obtain ⟨href, text⟩ := l
    simp only [scanLinks] at h
    by_cases h1 : netlocOf (urljoin url href) ≠ netlocOf base
    · rw [if_pos h1] at h
      obtain ⟨href', text', hmem, hml, heq, hn⟩ := ih h
      exact ⟨href', text', List.mem_cons_of_mem _ hmem, hml, heq, hn⟩
    · rw [if_neg h1] at h
      by_cases h2 : is_menu_link href text
      · rw [if_pos h2] at h
        push_neg at h1
        cases h
        exact ⟨href, text, List.mem_cons_self _ _, h2, rfl, h1⟩
      · rw [if_neg h2] at h
        by_cases h3 : depth < maxD
        · rw [if_pos h3] at h
          obtain ⟨href', text', hmem, hml, heq, hn⟩ := ih h
          exact ⟨href', text', List.mem_cons_of_mem _ hmem, hml, heq, hn⟩
        · rw [if_neg h3] at h
          obtain ⟨href', text', hmem, hml, heq, hn⟩ := ih h
          exact ⟨href', text', List.mem_cons_of_mem _ hmem, hml, heq, hn⟩

theorem lookup_mem {l : Site} {u : String} {page : Page}
    (h : List.lookup u l = some page) : (u, page) ∈ l := by
  induction l with
  | nil => simp [List.lookup] at h
  | cons e rest ih =>
    obtain ⟨k, v⟩ := e
    rw [List.lookup] at h
    by_cases hk : u == k
    · simp only [hk, if_pos] at h
      cases h
      have : u = k := by simpa using hk
      subst this
      exact List.mem_cons_self _ _
    · simp only [Bool.not_eq_true] at hk
      simp only [hk] at h
      exact List.mem_cons_of_mem _ (ih h)

theorem links_le_totalLinks {site : Site} {u : String} {page : Page}
    (h : List.lookup u site = some page) : page.links.length ≤ totalLinks site := by
  have hmem : (u, page) ∈ site := lookup_mem h
  have : page.links.length ∈ site.map (fun e => e.2.links.length) :=
    List.mem_map_of_mem _ hmem
  exact List.single_le_sum (fun x _ => Nat.zero_le x) _ this

theorem queueMeasure_append (maxD T : ℕ) (q₁ q₂ : List (String × ℕ)) :
    queueMeasure maxD T (q₁ ++ q₂) = queueMeasure maxD T q₁ + queueMeasure maxD T q₂ := by
  unfold queueMeasure
  rw [List.map_append, List.sum_append]

theorem queueMeasure_cons (maxD T : ℕ) (it : String × ℕ) (q : List (String × ℕ)) :
    queueMeasure maxD T (it :: q) = linkWeight maxD T it.2 + queueMeasure maxD T q := by
  unfold queueMeasure
  rw [List.map_cons, List.sum_cons]

theorem linkWeight_pos (maxD T depth : ℕ) : 1 ≤ linkWeight maxD T depth :=
  Nat.one_le_pow _ _ (Nat.succ_pos T)

theorem queueMeasure_const_depth (maxD T d : ℕ) (q : List (String × ℕ))
    (h : ∀ it ∈ q, it.2 = d) :
    queueMeasure maxD T q = q.length * linkWeight maxD T d := by
  induction q with
  | nil => simp [queueMeasure]
  | cons it rest ih =>
    rw [queueMeasure_cons, ih (fun x hx => h x (List.mem_cons_of_mem _ hx)),
      h it (List.mem_cons_self _ _), List.length_cons]
    ring

theorem items_measure_lt_weight (maxD T depth : ℕ) (hd : depth ≤ maxD)
    (q : List (String × ℕ)) (hq : ∀ it ∈ q, it.2 = depth + 1) (hlen : q.length ≤ T) :
    queueMeasure maxD T q < linkWeight maxD T depth := by
  rw [queueMeasure_const_depth maxD T (depth + 1) q hq]
  unfold linkWeight
  have h1 : maxD + 1 - depth = (maxD + 1 - (depth + 1)) + 1 := by omega
  rw [h1, pow_succ]
  calc q.length * (T + 1) ^ (maxD + 1 - (depth + 1))
      ≤ T * (T + 1) ^ (maxD + 1 - (depth + 1)) :=
        Nat.mul_le_mul_right _ hlen
    _ < (T + 1) ^ (maxD + 1 - (depth + 1)) * (T + 1) := by
        have hp : 0 < (T + 1) ^ (maxD + 1 - (depth + 1)) := pow_pos (Nat.succ_pos T) _
        calc T * (T + 1) ^ (maxD + 1 - (depth + 1))
            = (T + 1) ^ (maxD + 1 - (depth + 1)) * T := by ring
          _ < (T + 1) ^ (maxD + 1 - (depth + 1)) * (T + 1) :=
            (Nat.mul_lt_mul_left hp).mpr (Nat.lt_succ_self T)

theorem crawl_cons_skip (site : Site) (base : String) (maxD fuel : ℕ)
    (url : String) (depth : ℕ) (rest : List (String × ℕ)) (v : List String)
    (h : url ∈ v ∨ maxD < depth) :
    crawl site base maxD (fuel + 1) ((url, depth) :: rest) v =
      crawl site base maxD fuel rest v := by
  simp only [crawl]
  rw [if_pos h]

theorem crawl_cons_nopage (site : Site) (base : String) (maxD fuel : ℕ)
    (url : String) (depth : ℕ) (rest : List (String × ℕ)) (v : List String)
    (h : ¬(url ∈ v ∨ maxD < depth)) (hlook : List.lookup url site = none) :
    crawl site base maxD (fuel + 1) ((url, depth) :: rest) v =
      crawl site base maxD fuel rest (url :: v) := by
  simp only [crawl]
  rw [if_neg h, hlook]

theorem crawl_cons_badstatus (site : Site) (base : String) (maxD fuel : ℕ)
    (url : String) (depth : ℕ) (rest : List (String × ℕ)) (v : List String)
    (page : Page) (h : ¬(url ∈ v ∨ maxD < depth))
    (hlook : List.lookup url site = some page) (hst : page.status ≠ 200) :
    crawl site base maxD (fuel + 1) ((url, depth) :: rest) v =
      crawl site base maxD fuel rest (url :: v) := by
  simp only [crawl]
  rw [if_neg h, hlook]
  show (if page.status ≠ 200 then crawl site base maxD fuel rest (url :: v)
    else if hasSub (pyLower page.contentType).toList "text/html".toList = false then
      crawl site base maxD fuel rest (url :: v)
    else
      match scanLinks base url depth maxD page.links with
      | (some hit, _) => some hit
      | (none, items) => crawl site base maxD fuel (rest ++ items) (url :: v)) = _
  rw [if_pos hst]

theorem crawl_cons_nothtml (site : Site) (base : String) (maxD fuel : ℕ)
    (url : String) (depth : ℕ) (rest : List (String × ℕ)) (v : List String)
    (page : Page) (h : ¬(url ∈ v ∨ maxD < depth))
    (hlook : List.lookup url site = some page) (hst : page.status = 200)
    (hhtml : hasSub (pyLower page.contentType).toList "text/html".toList = false) :
    crawl site base maxD (fuel + 1) ((url, depth) :: rest) v =
      crawl site base maxD fuel rest (url :: v) := by
  simp only [crawl]
  rw [if_neg h, hlook]
  show (if page.status ≠ 200 then crawl site base maxD fuel rest (url :: v)
    else if hasSub (pyLower page.contentType).toList "text/html".toList = false then
      crawl site base maxD fuel rest (url :: v)
    else
      match scanLinks base url depth maxD page.links with
      | (some hit, _) => some hit
      | (none, items) => crawl site base maxD fuel (rest ++ items) (url :: v)) = _
  rw [if_neg (by simp [hst]), if_pos hhtml]

theorem crawl_cons_hit (site : Site) (base : String) (maxD fuel : ℕ)
    (url : String) (depth : ℕ) (rest : List (String × ℕ)) (v : List String)
    (page : Page) (s : String) (items : List (String × ℕ))
    (h : ¬(url ∈ v ∨ maxD < depth))
    (hlook : List.lookup url site = some page) (hst : page.status = 200)
    (hhtml : hasSub (pyLower page.contentType).toList "text/html".toList = true)
    (hscan : scanLinks base url depth maxD page.links = (some s, items)) :
    crawl site base maxD (fuel + 1) ((url, depth) :: rest) v = some s := by
  simp only [crawl]
  rw [if_neg h, hlook]
  show (if page.status ≠ 200 then crawl site base maxD fuel rest (url :: v)
    else if hasSub (pyLower page.contentType).toList "text/html".toList = false then
      crawl site base maxD fuel rest (url :: v)
    else
      match scanLinks base url depth maxD page.links with
      | (some hit, _) => some hit
      | (none, items) => crawl site base maxD fuel (rest ++ items) (url :: v)) = _
  rw [if_neg (by simp [hst]), if_neg (by rw [hhtml]; simp), hscan]

theorem crawl_cons_expand (site : Site) (base : String) (maxD fuel : ℕ)
    (url : String) (depth : ℕ) (rest : List (String × ℕ)) (v : List String)
    (page : Page) (items : List (String × ℕ))
    (h : ¬(url ∈ v ∨ maxD < depth))
    (hlook : List.lookup url site = some page) (hst : page.status = 200)
    (hhtml : hasSub (pyLower page.contentType).toList "text/html".toList = true)
    (hscan : scanLinks base url depth maxD page.links = (none, items)) :
    crawl site base maxD (fuel + 1) ((url, depth) :: rest) v =
      crawl site base maxD fuel (rest ++ items) (url :: v) := by
  simp only [crawl]
  rw [if_neg h, hlook]
  show (if page.status ≠ 200 then crawl site base maxD fuel rest (url :: v)
    else if hasSub (pyLower page.contentType).toList "text/html".toList = false then
      crawl site base maxD fuel rest (url :: v)
    else
      match scanLinks base url depth maxD page.links with
      | (some hit, _) => some hit
      | (none, items) => crawl site base maxD fuel (rest ++ items) (url :: v)) = _
  rw [if_neg (by simp [hst]), if_neg (by rw [hhtml]; simp), hscan]

theorem crawl_isSome_of_measure_lt (site : Site) (base : String) (maxD : ℕ) :
    ∀ (fuel : ℕ) (q : List (String × ℕ)) (v : List String),
      queueMeasure maxD (totalLinks site) q < fuel →
      ∃ r, crawl site base maxD fuel q v = some r := by
  intro fuel
  induction fuel with
  | zero => intro q v h; exact absurd h (Nat.not_lt_zero _)
  | succ fuel ih =>
    intro q v h
    match q with
    | [] => exact ⟨"", rfl⟩
    | (url, depth) :: rest =>
      rw [queueMeasure_cons] at h
      have h' : linkWeight maxD (totalLinks site) depth +
          queueMeasure maxD (totalLinks site) rest < fuel + 1 := h
      have hw := linkWeight_pos maxD (totalLinks site) depth
      have hrest : queueMeasure maxD (totalLinks site) rest < fuel := by omega
      by_cases hv : url ∈ v ∨ maxD < depth
      · rw [crawl_cons_skip site base maxD fuel url depth rest v hv]
        exact ih rest v hrest
      · cases hlook : List.lookup url site with
        | none =>
          rw [crawl_cons_nopage site base maxD fuel url depth rest v hv hlook]
          exact ih rest (url :: v) hrest
        | some page =>
          by_cases hst : page.status ≠ 200
          · rw [crawl_cons_badstatus site base maxD fuel url depth rest v page hv hlook hst]
            exact ih rest (url :: v) hrest
          · push_neg at hst
            cases hhtml : hasSub (pyLower page.contentType).toList "text/html".toList with
            | false =>
              rw [crawl_cons_nothtml site base maxD fuel url depth rest v page hv hlook hst hhtml]
              exact ih rest (url :: v) hrest
            | true =>
              cases hscan : scanLinks base url depth maxD page.links with
              | mk hit items =>
                cases hit with
                | some s =>
                  exact ⟨s, crawl_cons_hit site base maxD fuel url depth rest v page s items
                    hv hlook hst hhtml hscan⟩
                | none =>
                  rw [crawl_cons_expand site base maxD fuel url depth rest v page items
                    hv hlook hst hhtml hscan]
                  refine ih (rest ++ items) (url :: v) ?_
                  rw [queueMeasure_append]
                  have hitems : queueMeasure maxD (totalLinks site) items <
                      linkWeight maxD (totalLinks site) depth := by
                    have hspec := scanLinks_items base url depth maxD page.links
                    rw [hscan] at hspec
                    refine items_measure_lt_weight maxD (totalLinks site) depth
                      (by omega) items (fun it hit => (hspec.2 it hit).1) ?_
                    exact le_trans hspec.1 (links_le_totalLinks hlook)
                  omega

theorem crawl_no_reachable_hit (site : Site) (base : String) (maxD : ℕ)
    (hnohit : ∀ u, Reachable site base u → ∀ p, List.lookup u site = some p →
      ∀ l ∈ p.links, is_menu_link l.1 l.2 = false) :
    ∀ (fuel : ℕ) (q : List (String × ℕ)) (v : List String),
      (∀ it ∈ q, Reachable site base it.1) →
      ∀ r, crawl site base maxD fuel q v = some r → r = "" := by
  intro fuel
  induction fuel with
  | zero => intro q v _ r hr; cases hr
  | succ fuel ih =>
    intro q v hq r hr
    match q, hq with
    | [], _ =>
      simp only [crawl] at hr
      cases hr
      rfl
    | (url, depth) :: rest, hq =>
      have hqrest : ∀ it ∈ rest, Reachable site base it.1 :=
        fun it hit => hq it (List.mem_cons_of_mem _ hit)
      have hqurl : Reachable site base url := hq (url, depth) (List.mem_cons_self _ _)
      by_cases hv : url ∈ v ∨ maxD < depth
      · rw [crawl_cons_skip site base maxD fuel url depth rest v hv] at hr
        exact ih rest v hqrest r hr
      · cases hlook : List.lookup url site with
        | none =>
          rw [crawl_cons_nopage site base maxD fuel url depth rest v hv hlook] at hr
          exact ih rest (url :: v) hqrest r hr
        | some page =>
          by_cases hst : page.status ≠ 200
          · rw [crawl_cons_badstatus site base maxD fuel url depth rest v page
              hv hlook hst] at hr
            exact ih rest (url :: v) hqrest r hr
          · push_neg at hst
            cases hhtml : hasSub (pyLower page.contentType).toList "text/html".toList with
            | false =>
              rw [crawl_cons_nothtml site base maxD fuel url depth rest v page
                hv hlook hst hhtml] at hr
              exact ih rest (url :: v) hqrest r hr
            | true =>
              cases hscan : scanLinks base url depth maxD page.links with
              | mk hit items =>
                cases hit with
                | some s =>
                  obtain ⟨href, text, hmem, hml, _, _⟩ :=
                    scanLinks_hit base url depth maxD page.links s (by rw [hscan])
                  have := hnohit url hqurl page hlook (href, text) hmem
                  rw [this] at hml
                  cases hml
                | none =>
                  rw [crawl_cons_expand site base maxD fuel url depth rest v page items
                    hv hlook hst hhtml hscan] at hr
                  refine ih (rest ++ items) (url :: v) ?_ r hr
                  intro it hit
                  rcases List.mem_append.mp hit with hmem | hmem
                  · exact hqrest it hmem
                  · have hspec := scanLinks_items base url depth maxD page.links
                    rw [hscan] at hspec
                    obtain ⟨_, hn, href, text, hlmem, heq⟩ := hspec.2 it hmem
                    rw [heq]
                    exact Reachable.step hqurl hlook hst hhtml hlmem (heq ▸ hn)

theorem crawl_result_same_netloc (site : Site) (base : String) (maxD : ℕ) :
    ∀ (fuel : ℕ) (q : List (String × ℕ)) (v : List String) (res : String),
      (∀ it ∈ q, netlocOf it.1 = netlocOf base) →
      crawl site base maxD fuel q v = some res → res ≠ "" →
      netlocOf res = netlocOf base := by
  intro fuel
  induction fuel with
  | zero => intro q v res _ hr; cases hr
  | succ fuel ih =>
    intro q v res hq hr hne
    match q, hq with
    | [], _ =>
      simp only [crawl] at hr
      cases hr
      exact absurd rfl hne
    | (url, depth) :: rest, hq =>
      have hqrest : ∀ it ∈ rest, netlocOf it.1 = netlocOf base :=
        fun it hit => hq it (List.mem_cons_of_mem _ hit)
      by_cases hv : url ∈ v ∨ maxD < depth
      · rw [crawl_cons_skip site base maxD fuel url depth rest v hv] at hr
        exact ih rest v res hqrest hr hne
      · cases hlook : List.lookup url site with
        | none =>
          rw [crawl_cons_nopage site base maxD fuel url depth rest v hv hlook] at hr
          exact ih rest (url :: v) res hqrest hr hne
        | some page =>
          by_cases hst : page.status ≠ 200
          · rw [crawl_cons_badstatus site base maxD fuel url depth rest v page
              hv hlook hst] at hr
            exact ih rest (url :: v) res hqrest hr hne
          · push_neg at hst
            cases hhtml : hasSub (pyLower page.contentType).toList "text/html".toList with
            | false =>
              rw [crawl_cons_nothtml site base maxD fuel url depth rest v page
                hv hlook hst hhtml] at hr
              exact ih rest (url :: v) res hqrest hr hne
            | true =>
              cases hscan : scanLinks base url depth maxD page.links with
              | mk hit items =>
                cases hit with
                | some s =>
                  rw [crawl_cons_hit site base maxD fuel url depth rest v page s items
                    hv hlook hst hhtml hscan] at hr
                  cases hr
                  obtain ⟨_, _, _, _, _, hn⟩ :=
                    scanLinks_hit base url depth maxD page.links res (by rw [hscan])
                  exact hn
                | none =>
                  rw [crawl_cons_expand site base maxD fuel url depth rest v page items
                    hv hlook hst hhtml hscan] at hr
                  refine ih (rest ++ items) (url :: v) res ?_ hr hne
                  intro it hit
                  rcases List.mem_append.mp hit with hmem | hmem
                  · exact hqrest it hmem
                  · have hspec := scanLinks_items base url depth maxD page.links
                    rw [hscan] at hspec
                    exact (hspec.2 it hmem).2.1

/-- C4: for every finite site — cyclic link graphs included — the crawl
loop finishes within `fuelBound` iterations; when no link on any reachable
same-origin page classifies as a menu hit, `find_menu` exhausts the queue
and returns the empty no-menu-found value; and on the concrete two-page
cycle A -> B -> A with no menu keyword it returns `""`. -/
theorem find_menu_terminates (site : Site) (base : String) (maxD : ℕ) :
    (∃ res, crawl site base maxD (fuelBound site maxD) [(base, 0)] [] = some res) ∧
    ((∀ u, Reachable site base u → ∀ p, List.lookup u site = some p →
        ∀ l ∈ p.links, is_menu_link l.1 l.2 = false) →
      find_menu site base maxD = "") ∧
    find_menu cyclicSite "https://a.com" 2 = "" := by
  have hterm : ∃ res, crawl site base maxD (fuelBound site maxD) [(base, 0)] [] = some res := by
    refine crawl_isSome_of_measure_lt site base maxD (fuelBound site maxD) [(base, 0)] [] ?_
    have : queueMeasure maxD (totalLinks site) [(base, 0)] =
        linkWeight maxD (totalLinks site) 0 := by
      rw [queueMeasure_cons]
      simp [queueMeasure]
    rw [this]
    unfold fuelBound linkWeight
    simp only [Nat.sub_zero]
    omega
  refine ⟨hterm, fun hnohit => ?_, by decide⟩
  unfold find_menu
  by_cases hbase : base = ""
  · rw [if_pos hbase]
  · rw [if_neg hbase]
    obtain ⟨res, hres⟩ := hterm
    have hq : ∀ it ∈ ([((base : String), (0 : ℕ))] : List (String × ℕ)),
        Reachable site base it.1 := by
      intro it hit
      have : it = (base, 0) := by simpa using hit
      rw [this]
      exact Reachable.base
    have := crawl_no_reachable_hit site base maxD hnohit (fuelBound site maxD)
      [(base, 0)] [] hq res hres
    rw [hres, this]
    rfl

/-- C5 (amended): every URL `scanLinks` collects for the queue, every hit
it returns, and every non-empty menu URL the crawl loop returns has the
same host (urlparse netloc) as `base_url` — the code compares netloc only,
not the scheme. -/
theorem crawler_same_host (site : Site) (base : String) (maxD : ℕ) :
    (∀ (url : String) (depth : ℕ) (links : List (String × String)),
      ∀ it ∈ (scanLinks base url depth maxD links).2, netlocOf it.1 = netlocOf base) ∧
    (∀ (url : String) (depth : ℕ) (links : List (String × String)) (s : String),
      (scanLinks base url depth maxD links).1 = some s → netlocOf s = netlocOf base) ∧
    (∀ (fuel : ℕ) (q : List (String × ℕ)) (v : List String) (res : String),
      (∀ it ∈ q, netlocOf it.1 = netlocOf base) →
      crawl site base maxD fuel q v = some res → res ≠ "" →
      netlocOf res = netlocOf base) := by
  refine ⟨?_, ?_, ?_⟩
  · intro url depth links it hit
    exact ((scanLinks_items base url depth maxD links).2 it hit).2.1
  · intro url depth links s hs
    obtain ⟨_, _, _, _, _, hn⟩ := scanLinks_hit base url depth maxD links s hs
    exact hn
  · intro fuel q v res hq hr hne
    exact crawl_result_same_netloc site base maxD fuel q v res hq hr hne

/-- C5 counterexample to scheme-and-host origin: on `schemeCexSite` the
crawler enqueues nothing else and returns `http://ex.com/menu`, whose host
equals the base's host but whose scheme (`http`) differs from the base's
(`https`), even though the link classifies as a menu hit — so "same
origin: scheme and host" fails as stated while same-host holds. -/
theorem find_menu_cross_scheme_cex :
    find_menu schemeCexSite "https://ex.com" 2 = "http://ex.com/menu" ∧
    netlocOf "http://ex.com/menu" = netlocOf "https://ex.com" ∧
    is_menu_link "http://ex.com/menu" "" = true ∧
    schemeOf "http://ex.com/menu" ≠ schemeOf "https://ex.com" := by
  exact ⟨by decide, by decide, by decide, by decide⟩

/-! ## C2: planner coverage -/

theorem pyInt_intCast (n : ℤ) : pyInt (n : ℚ) = n := by
  unfold pyInt
  by_cases h : (n : ℚ) < 0
  · rw [if_pos h, Int.ceil_intCast]
  · rw [if_neg h, Int.floor_intCast]

theorem pyInt_of_nonneg {q : ℚ} (h : 0 ≤ q) : pyInt q = ⌊q⌋ := by
  unfold pyInt
  rw [if_neg (not_lt.mpr h)]

theorem pyInt_neg_of_nonneg {q : ℚ} (h : 0 ≤ q) : pyInt (-q) = -⌊q⌋ := by
  unfold pyInt
  rcases eq_or_lt_of_le h with heq | hlt
  · rw [if_neg (by rw [← heq]; simp)]
    rw [← heq]
    simp
  · rw [if_pos (by simpa using hlt), Int.ceil_neg]

theorem mem_pythonRange {a b s g : ℤ} (hs : 0 < s) :
    g ∈ pythonRange a b s ↔
      ∃ k : ℕ, (k : ℤ) < (b - a + s - 1) / s ∧ g = a + (k : ℤ) * s := by
  unfold pythonRange
  rw [if_pos hs]
  simp only [List.mem_map, List.mem_range]
  constructor
  · rintro ⟨k, hk, rfl⟩
    exact ⟨k, by omega, rfl⟩
  · rintro ⟨k, hk, rfl⟩
    exact ⟨k, by omega, rfl⟩

theorem pythonRange_mem_of_le {N s k : ℤ} (hs : 0 < s) (hk : 0 ≤ k)
    (hks : k ≤ 2 * N / s) (hN : 0 ≤ N) :
    (-N + k * s) ∈ pythonRange (-N) (N + 1) s := by
  rw [mem_pythonRange hs]
  refine ⟨k.toNat, ?_, by rw [Int.toNat_of_nonneg hk]⟩
  have harith : N + 1 - -N + s - 1 = 2 * N + s := by ring
  rw [harith]
  have hdiv : (2 * N + s) / s = 2 * N / s + 1 := by
    have := Int.add_mul_ediv_right (2 * N) 1 (by omega : s ≠ 0)
    simpa using this
  have hnn : 0 ≤ 2 * N / s := Int.ediv_nonneg (by omega) (by omega)
  omega

theorem snap_coord (R : ℚ) (hR : 0 ≤ R) (s : ℤ) (hs : 1 ≤ s) (q : ℚ) (hq : |q| ≤ R) :
    ∃ g : ℤ, g ∈ pythonRange (-⌊R⌋) (⌊R⌋ + 1) s ∧ |(g : ℚ) - q| ≤ (s : ℚ) ∧
      (g : ℚ) ^ 2 ≤ max (q ^ 2) ((s : ℚ) ^ 2) := by
  have hN : (0 : ℤ) ≤ ⌊R⌋ := Int.floor_nonneg.mpr hR
  have hNR : ((⌊R⌋ : ℤ) : ℚ) ≤ R := Int.floor_le R
  have hRN : R < (⌊R⌋ : ℚ) + 1 := Int.lt_floor_add_one R
  have hsQ : (0 : ℚ) < (s : ℚ) := by exact_mod_cast (by omega : (0 : ℤ) < s)
  have hNQ : (0 : ℚ) ≤ ((⌊R⌋ : ℤ) : ℚ) := by
    exact_mod_cast Int.floor_nonneg.mpr hR
  have hs1 : (1 : ℚ) ≤ (s : ℚ) := by exact_mod_cast hs
  obtain ⟨hql, hqr⟩ := abs_le.mp hq
  by_cases hq0 : 0 ≤ q
  · -- snap down to the greatest coordinate not exceeding q
    set j := ⌊(q + (⌊R⌋ : ℚ)) / (s : ℚ)⌋ with hjdef
    have hj0 : 0 ≤ j :=
      Int.floor_nonneg.mpr (div_nonneg (by push_cast; linarith) (le_of_lt hsQ))
    have hjle : ((j : ℤ) : ℚ) ≤ (q + (⌊R⌋ : ℚ)) / (s : ℚ) := Int.floor_le _
    have hjlt : (q + (⌊R⌋ : ℚ)) / (s : ℚ) < (j : ℚ) + 1 := Int.lt_floor_add_one _
    have hgle : (j : ℚ) * (s : ℚ) ≤ q + (⌊R⌋ : ℚ) := (le_div_iff hsQ).mp hjle
    have hglt : q + (⌊R⌋ : ℚ) < ((j : ℚ) + 1) * (s : ℚ) := (div_lt_iff hsQ).mp hjlt
    have hjs2N : j * s ≤ 2 * ⌊R⌋ := by
      have hcast : (j : ℚ) * (s : ℚ) < 2 * (⌊R⌋ : ℚ) + 1 := by linarith
      have hz : j * s < 2 * ⌊R⌋ + 1 := by exact_mod_cast (by push_cast; linarith :
        ((j * s : ℤ) : ℚ) < ((2 * ⌊R⌋ + 1 : ℤ) : ℚ))
      omega
    have hjdiv : j ≤ 2 * ⌊R⌋ / s :=
      (Int.le_ediv_iff_mul_le (by omega : (0 : ℤ) < s)).mpr hjs2N
    refine ⟨-⌊R⌋ + j * s,
      pythonRange_mem_of_le (by omega) hj0 hjdiv hN, ?_, ?_⟩
    · rw [abs_le]
      constructor <;> push_cast <;> linarith
    · by_cases hg0 : (0 : ℚ) ≤ ((-⌊R⌋ + j * s : ℤ) : ℚ)
      · refine le_max_of_le_left (sq_le_sq' ?_ ?_) <;> push_cast at hg0 ⊢ <;> linarith
      · push_neg at hg0
        refine le_max_of_le_right (sq_le_sq' ?_ ?_) <;> push_cast at hg0 ⊢ <;> linarith
  · push_neg at hq0
    -- snap up to the least coordinate at least q, clamped to the top
    set j := ⌈(q + (⌊R⌋ : ℚ)) / (s : ℚ)⌉ with hjdef
    have hqN : (-1 : ℚ) < q + (⌊R⌋ : ℚ) := by linarith
    have hj0 : 0 ≤ j := by
      have hdiv : (-1 : ℤ) < j := Int.lt_ceil.mpr (by
        rw [lt_div_iff hsQ]
        push_cast
        nlinarith)
      omega
    have hjge : (q + (⌊R⌋ : ℚ)) / (s : ℚ) ≤ (j : ℚ) := Int.le_ceil _
    have hjlt : (j : ℚ) < (q + (⌊R⌋ : ℚ)) / (s : ℚ) + 1 := Int.ceil_lt_add_one _
    have hgge : q + (⌊R⌋ : ℚ) ≤ (j : ℚ) * (s : ℚ) := (div_le_iff hsQ).mp hjge
    have hglt : ((j : ℚ) - 1) * (s : ℚ) < q + (⌊R⌋ : ℚ) := by
      rw [← lt_div_iff hsQ]
      linarith
    by_cases hjtop : j ≤ 2 * ⌊R⌋ / s
    · refine ⟨-⌊R⌋ + j * s,
        pythonRange_mem_of_le (by omega) hj0 hjtop hN, ?_, ?_⟩
      · rw [abs_le]
        constructor <;> push_cast <;> linarith
      · by_cases hg0 : ((-⌊R⌋ + j * s : ℤ) : ℚ) ≤ 0
        · refine le_max_of_le_left ?_
          have h1 : q ≤ ((-⌊R⌋ + j * s : ℤ) : ℚ) := by push_cast; linarith
          have h2 : ((-⌊R⌋ + j * s : ℤ) : ℚ) ≤ -q := by linarith
          have := sq_le_sq' (by linarith : -(-q) ≤ ((-⌊R⌋ + j * s : ℤ) : ℚ)) h2
          simpa using this
        · push_neg at hg0
          refine le_max_of_le_right (sq_le_sq' ?_ ?_) <;> push_cast at hg0 ⊢ <;> linarith
    · push_neg at hjtop
      set k := 2 * ⌊R⌋ / s with hkdef
      have hk0 : 0 ≤ k := Int.ediv_nonneg (by omega) (by omega)
      have hmod := Int.ediv_add_emod (2 * ⌊R⌋) s
      have hmod0 : 0 ≤ 2 * ⌊R⌋ % s := Int.emod_nonneg _ (by omega)
      have hmods : 2 * ⌊R⌋ % s < s := Int.emod_lt_of_pos _ (by omega)
      have hksle : k * s ≤ 2 * ⌊R⌋ := by
        rw [hkdef, mul_comm (2 * ⌊R⌋ / s) s]
        omega
      have hksgt : 2 * ⌊R⌋ - s < k * s := by
        rw [hkdef, mul_comm (2 * ⌊R⌋ / s) s]
        omega
      have hkq : ((k : ℤ) : ℚ) < (q + (⌊R⌋ : ℚ)) / (s : ℚ) := Int.lt_ceil.mp hjtop
      have hkqs : (k : ℚ) * (s : ℚ) < q + (⌊R⌋ : ℚ) := (lt_div_iff hsQ).mp hkq
      have hcast1 : ((k * s : ℤ) : ℚ) ≤ 2 * (⌊R⌋ : ℚ) := by exact_mod_cast hksle
      have hcast2 : 2 * (⌊R⌋ : ℚ) - (s : ℚ) < ((k * s : ℤ) : ℚ) := by exact_mod_cast hksgt
      refine ⟨-⌊R⌋ + k * s,
        pythonRange_mem_of_le (by omega) hk0 le_rfl hN, ?_, ?_⟩
      · rw [abs_le]
        have hNQ : (0 : ℚ) ≤ (⌊R⌋ : ℚ) := by exact_mod_cast hN
        constructor <;> push_cast at hcast1 hcast2 ⊢ <;> linarith
      · refine le_max_of_le_right (sq_le_sq' ?_ ?_) <;>
          push_cast at hcast1 hcast2 ⊢ <;> linarith

theorem mem_grid_offsets (R r : ℚ) (x y : ℤ) :
    (x, y) ∈ grid_offsets R r ↔
      x ∈ pythonRange (pyInt (-R)) (pyInt R + 1) (pyInt (max (r * (7 / 5)) 200)) ∧
      y ∈ pythonRange (pyInt (-R)) (pyInt R + 1) (pyInt (max (r * (7 / 5)) 200)) ∧
      (x : ℚ) * (x : ℚ) + (y : ℚ) * (y : ℚ) ≤ R * R := by
  unfold grid_offsets
  simp only [List.mem_flatMap, List.mem_map, List.mem_filter, decide_eq_true_eq, not_lt]
  constructor
  · rintro ⟨x_, hx_, y_, ⟨hy_, hfil⟩, heq⟩
    cases heq
    exact ⟨hx_, hy_, hfil⟩
  · rintro ⟨hx, hy, hfil⟩
    exact ⟨x, hx, y, ⟨hy, hfil⟩, rfl⟩

theorem mem_scan_offsets_of_mem_grid {R r : ℚ} {g : ℤ × ℤ}
    (h : g ∈ grid_offsets R r) : g ∈ scan_offsets R r := by
  unfold scan_offsets
  have hne : ¬(grid_offsets R r).isEmpty := by
    intro he
    rw [List.isEmpty_iff] at he
    rw [he] at h
    cases h
  rw [if_neg hne]
  exact h

theorem abs_le_of_sq_le_sq_nonneg (x R : ℚ) (hR : 0 ≤ R) (h : x ^ 2 ≤ R ^ 2) : |x| ≤ R := by
  rw [abs_le]
  constructor <;> nlinarith [sq_nonneg (x + R), sq_nonneg (x - R)]

set_option maxHeartbeats 1600000 in
theorem coverage_main_axis (R : ℚ) (hR : 0 ≤ R) (s : ℤ) (hs : 1 ≤ s)
    (a b : ℚ) (hab : a ^ 2 + b ^ 2 ≤ R ^ 2) (ha : (3 / 2) * (s : ℚ) ≤ |a|) :
    ∃ ga gb : ℤ, ga ∈ pythonRange (-⌊R⌋) (⌊R⌋ + 1) s ∧
      gb ∈ pythonRange (-⌊R⌋) (⌊R⌋ + 1) s ∧
      (ga : ℚ) ^ 2 + (gb : ℚ) ^ 2 ≤ R ^ 2 ∧
      |(ga : ℚ) - a| ≤ (5 / 2) * (s : ℚ) ∧ |(gb : ℚ) - b| ≤ (5 / 2) * (s : ℚ) := by
  have hsQ : (0 : ℚ) < (s : ℚ) := by exact_mod_cast (by omega : (0 : ℤ) < s)
  have haR : |a| ≤ R := abs_le_of_sq_le_sq_nonneg a R hR (by nlinarith [sq_nonneg b])
  have hbR : |b| ≤ R := abs_le_of_sq_le_sq_nonneg b R hR (by nlinarith [sq_nonneg a])
  obtain ⟨qa, hqaR, hqa_dist, hqa_sq⟩ :
      ∃ qa, |qa| ≤ R ∧ |qa - a| ≤ (3 / 2) * (s : ℚ) ∧
        qa ^ 2 ≤ a ^ 2 - (9 / 4) * (s : ℚ) ^ 2 := by
    rcases le_or_lt 0 a with ha0 | ha0
    · have ha' : (3 / 2) * (s : ℚ) ≤ a := by rwa [abs_of_nonneg ha0] at ha
      refine ⟨a - (3 / 2) * (s : ℚ), ?_, ?_, ?_⟩
      · rw [abs_le]
        rw [abs_of_nonneg ha0] at haR
        constructor <;> nlinarith
      · rw [show a - (3 / 2) * (s : ℚ) - a = -((3 / 2) * (s : ℚ)) by ring, abs_neg,
          abs_of_nonneg (by positivity)]
      · nlinarith
    · have ha' : (3 / 2) * (s : ℚ) ≤ -a := by rwa [abs_of_neg ha0] at ha
      refine ⟨a + (3 / 2) * (s : ℚ), ?_, ?_, ?_⟩
      · rw [abs_le]
        rw [abs_of_neg ha0] at haR
        constructor <;> nlinarith
      · rw [show a + (3 / 2) * (s : ℚ) - a = (3 / 2) * (s : ℚ) by ring,
          abs_of_nonneg (by positivity)]
      · nlinarith
  obtain ⟨qb, hqbR, hqb_dist, hqb_sq⟩ :
      ∃ qb, |qb| ≤ R ∧ |qb - b| ≤ (3 / 2) * (s : ℚ) ∧ qb ^ 2 ≤ b ^ 2 := by
    rcases le_or_lt ((3 / 2) * (s : ℚ)) |b| with hb | hb
    · rcases le_or_lt 0 b with hb0 | hb0
      · have hb' : (3 / 2) * (s : ℚ) ≤ b := by rwa [abs_of_nonneg hb0] at hb
        refine ⟨b - (3 / 2) * (s : ℚ), ?_, ?_, by nlinarith⟩
        · rw [abs_le]
          rw [abs_of_nonneg hb0] at hbR
          constructor <;> nlinarith
        · rw [show b - (3 / 2) * (s : ℚ) - b = -((3 / 2) * (s : ℚ)) by ring, abs_neg,
            abs_of_nonneg (by positivity)]
      · have hb' : (3 / 2) * (s : ℚ) ≤ -b := by rwa [abs_of_neg hb0] at hb
        refine ⟨b + (3 / 2) * (s : ℚ), ?_, ?_, by nlinarith⟩
        · rw [abs_le]
          rw [abs_of_neg hb0] at hbR
          constructor <;> nlinarith
        · rw [show b + (3 / 2) * (s : ℚ) - b = (3 / 2) * (s : ℚ) by ring,
            abs_of_nonneg (by positivity)]
    · refine ⟨0, by simpa using hR, ?_, by positivity⟩
      rw [zero_sub, abs_neg]
      exact le_of_lt hb
  obtain ⟨ga, hga_mem, hga_dist, hga_sq⟩ := snap_coord R hR s hs qa hqaR
  obtain ⟨gb, hgb_mem, hgb_dist, hgb_sq⟩ := snap_coord R hR s hs qb hqbR
  refine ⟨ga, gb, hga_mem, hgb_mem, ?_, ?_, ?_⟩
  · have h1 : (ga : ℚ) ^ 2 ≤ qa ^ 2 + (s : ℚ) ^ 2 :=
      le_trans hga_sq (max_le (by nlinarith [sq_nonneg ((s : ℚ))])
        (by nlinarith [sq_nonneg qa]))
    have h2 : (gb : ℚ) ^ 2 ≤ qb ^ 2 + (s : ℚ) ^ 2 :=
      le_trans hgb_sq (max_le (by nlinarith [sq_nonneg ((s : ℚ))])
        (by nlinarith [sq_nonneg qb]))
    linarith [sq_nonneg ((s : ℚ))]
  · calc |(ga : ℚ) - a| = |((ga : ℚ) - qa) + (qa - a)| := by congr 1; ring
      _ ≤ |(ga : ℚ) - qa| + |qa - a| := abs_add _ _
      _ ≤ (s : ℚ) + (3 / 2) * (s : ℚ) := add_le_add hga_dist hqa_dist
      _ ≤ (5 / 2) * (s : ℚ) := by linarith
  · calc |(gb : ℚ) - b| = |((gb : ℚ) - qb) + (qb - b)| := by congr 1; ring
      _ ≤ |(gb : ℚ) - qb| + |qb - b| := abs_add _ _
      _ ≤ (s : ℚ) + (3 / 2) * (s : ℚ) := add_le_add hgb_dist hqb_dist
      _ ≤ (5 / 2) * (s : ℚ) := by linarith

set_option maxHeartbeats 1600000 in
/-- C2 (amended): every point of the zone disk is within squared planar
distance `(25/2) * s^2` — i.e. within distance `(5/2) * Real.sqrt 2 * s`,
about `3.54 * s` — of some scan point, where `s = int(max(1.4 r, 200))` is
the planner's integer grid step.  The claimed `1.4 r` bound itself is
false (`planner_coverage_cex`): near the zone boundary the disk filter can
remove every nearby grid point. -/
theorem planner_coverage_amended (R r px py : ℚ) (hR : 0 ≤ R) (hr : 0 < r)
    (hp : px ^ 2 + py ^ 2 ≤ R ^ 2) :
    ∃ g ∈ scan_offsets R r,
      (px - ((g : ℤ × ℤ).1 : ℚ)) ^ 2 + (py - ((g : ℤ × ℤ).2 : ℚ)) ^ 2 ≤
        (25 / 2) * ((pyInt (max (r * (7 / 5)) 200) : ℤ) : ℚ) ^ 2 := by
  have hstep200 : (200 : ℚ) ≤ max (r * (7 / 5)) 200 := le_max_right _ _
  have hstep0 : (0 : ℚ) ≤ max (r * (7 / 5)) 200 := by linarith
  set s : ℤ := pyInt (max (r * (7 / 5)) 200) with hsdef
  have hsfloor : s = ⌊max (r * (7 / 5)) 200⌋ := pyInt_of_nonneg hstep0
  have hs200 : (200 : ℤ) ≤ s := by
    rw [hsfloor]
    exact Int.le_floor.mpr (by push_cast; linarith)
  have hs1 : (1 : ℤ) ≤ s := by omega
  have hsQ : (0 : ℚ) < (s : ℚ) := by exact_mod_cast (by omega : (0 : ℤ) < s)
  have hcoords : pythonRange (pyInt (-R)) (pyInt R + 1) s =
      pythonRange (-⌊R⌋) (⌊R⌋ + 1) s := by
    rw [pyInt_neg_of_nonneg hR, pyInt_of_nonneg hR]
  rcases le_or_lt ((3 / 2) * (s : ℚ)) |px| with hbig | hx_small
  · obtain ⟨ga, gb, hma, hmb, hfil, hda, hdb⟩ :=
      coverage_main_axis R hR s hs1 px py hp hbig
    refine ⟨(ga, gb), ?_, ?_⟩
    · apply mem_scan_offsets_of_mem_grid
      rw [mem_grid_offsets, ← hsdef, hcoords]
      exact ⟨hma, hmb, by nlinarith⟩
    · obtain ⟨ha1, ha2⟩ := abs_le.mp hda
      obtain ⟨hb1, hb2⟩ := abs_le.mp hdb
      nlinarith
  · rcases le_or_lt ((3 / 2) * (s : ℚ)) |py| with hbig | hy_small
    · obtain ⟨ga, gb, hma, hmb, hfil, hda, hdb⟩ :=
        coverage_main_axis R hR s hs1 py px (by linarith) hbig
      refine ⟨(gb, ga), ?_, ?_⟩
      · apply mem_scan_offsets_of_mem_grid
        rw [mem_grid_offsets, ← hsdef, hcoords]
        exact ⟨hmb, hma, by nlinarith⟩
      · obtain ⟨ha1, ha2⟩ := abs_le.mp hda
        obtain ⟨hb1, hb2⟩ := abs_le.mp hdb
        nlinarith
    · rcases le_or_lt (2 * (s : ℚ) ^ 2) (R ^ 2) with hR2 | hR2
      · have h0 : |(0 : ℚ)| ≤ R := by simpa using hR
        obtain ⟨ga, hma, hda, hsa⟩ := snap_coord R hR s hs1 0 h0
        obtain ⟨gb, hmb, hdb, hsb⟩ := snap_coord R hR s hs1 0 h0
        have hsa' : (ga : ℚ) ^ 2 ≤ (s : ℚ) ^ 2 := by
          have : max ((0 : ℚ) ^ 2) ((s : ℚ) ^ 2) = (s : ℚ) ^ 2 := by
            rw [max_eq_right (by positivity)]
          rw [this] at hsa
          exact hsa
        have hsb' : (gb : ℚ) ^ 2 ≤ (s : ℚ) ^ 2 := by
          have : max ((0 : ℚ) ^ 2) ((s : ℚ) ^ 2) = (s : ℚ) ^ 2 := by
            rw [max_eq_right (by positivity)]
          rw [this] at hsb
          exact hsb
        refine ⟨(ga, gb), ?_, ?_⟩
        · apply mem_scan_offsets_of_mem_grid
          rw [mem_grid_offsets, ← hsdef, hcoords]
          exact ⟨hma, hmb, by nlinarith⟩
        · obtain ⟨ha1, ha2⟩ := abs_le.mp hda
          obtain ⟨hb1, hb2⟩ := abs_le.mp hdb
          obtain ⟨hx1, hx2⟩ := abs_lt.mp hx_small
          obtain ⟨hy1, hy2⟩ := abs_lt.mp hy_small
          simp only [sub_zero] at ha1 ha2 hb1 hb2
          nlinarith
      · cases hgrid : grid_offsets R r with
        | nil =>
          refine ⟨(0, 0), ?_, ?_⟩
          · unfold scan_offsets
            rw [hgrid]
            simp
          · simp only [Int.cast_zero, sub_zero]
            nlinarith [sq_nonneg ((s : ℚ))]
        | cons g t =>
          obtain ⟨gx, gy⟩ := g
          have hg : (gx, gy) ∈ grid_offsets R r := by
            rw [hgrid]
            exact List.mem_cons_self _ _
          obtain ⟨_, _, hfil⟩ := (mem_grid_offsets R r gx gy).mp hg
          refine ⟨(gx, gy), mem_scan_offsets_of_mem_grid hg, ?_⟩
          nlinarith [sq_nonneg (px + (gx : ℚ)), sq_nonneg (py + (gy : ℚ)),
            sq_nonneg ((s : ℚ))]

theorem pythonRange_cex_eval : pythonRange (-300) 301 490 = [-300, 190] := by decide

theorem grid_offsets_cex_eval : grid_offsets 300 350 = [(190, 190)] := by
  simp only [grid_offsets]
  rw [show pyInt (max ((350 : ℚ) * (7 / 5)) 200) = 490 by
      rw [show max ((350 : ℚ) * (7 / 5)) 200 = ((490 : ℤ) : ℚ) by push_cast; norm_num,
        pyInt_intCast],
    show pyInt (-(300 : ℚ)) = -300 by
      rw [show (-(300 : ℚ)) = ((-300 : ℤ) : ℚ) by push_cast; norm_num, pyInt_intCast],
    show pyInt ((300 : ℚ)) = 300 by
      rw [show ((300 : ℚ)) = ((300 : ℤ) : ℚ) by push_cast; norm_num, pyInt_intCast]]
  rw [show ((300 : ℤ) + 1) = 301 by norm_num, pythonRange_cex_eval]
  norm_num [List.flatMap_cons, List.flatMap_nil, List.filter_cons, List.filter_nil,
    decide_eq_true_eq, decide_eq_false_iff_not]

theorem scan_offsets_cex_eval : scan_offsets 300 350 = [(190, 190)] := by
  unfold scan_offsets
  rw [grid_offsets_cex_eval]
  rfl

/-- C2 counterexample: for zone radius `R = 300` and sub-scan radius
`r = 350` the planner keeps the single offset `(190, 190)`, and the disk
point at planar offset `(-300, 0)` (distance 300 ≤ R from the center) is at
distance `sqrt 276200 > 490 = 1.4 * 350` from every scan point, so the
claimed coverage radius `1.4 r` fails. -/
theorem planner_coverage_cex :
    ((-300 : ℚ) ^ 2 + (0 : ℚ) ^ 2 ≤ 300 ^ 2) ∧
    ∀ g ∈ scan_offsets 300 350,
      ¬ (((-300 : ℚ) - ((g : ℤ × ℤ).1 : ℚ)) ^ 2 + ((0 : ℚ) - ((g : ℤ × ℤ).2 : ℚ)) ^ 2 ≤
        ((7 / 5) * 350) ^ 2) := by
  refine ⟨by norm_num, ?_⟩
  intro g hg
  rw [scan_offsets_cex_eval] at hg
  have hgeq : g = ((190 : ℤ), (190 : ℤ)) := by simpa using hg
  subst hgeq
  push_cast
  norm_num

/-- Witness for C2 (amended) at `R = 1000`, `r = 350`, point `(707, 707)`. -/
theorem planner_coverage_amended_witness :
    ∃ g ∈ scan_offsets 1000 350,
      ((707 : ℚ) - ((g : ℤ × ℤ).1 : ℚ)) ^ 2 + ((707 : ℚ) - ((g : ℤ × ℤ).2 : ℚ)) ^ 2 ≤
        (25 / 2) * ((pyInt (max ((350 : ℚ) * (7 / 5)) 200) : ℤ) : ℚ) ^ 2 :=
  planner_coverage_amended 1000 350 707 707 (by norm_num) (by norm_num) (by norm_num)
